import Mathlib

/-!
Shallow embedding of the `sesh` project (a tmux session manager written in Go)
and proofs about its core subsystems.

Embedded source files:
* `internal/cache/recent.go`  — the bounded recency cache (`RecentProjects`)
* `internal/finder/finder.go` — the frecency ranking engine (`applyFrecencyScores`)
* `internal/tmux/session.go`  — session-name sanitization and session lifecycle
* `internal/zoxide/zoxide.go` — the usage-oracle client (`GetScores`)
* `main.go`                   — the interactive entry point (`runInteractive`)

Modelling conventions:
* Go `float64` scores are modelled as exact rationals (`ℚ`); every claim proved
  here is purely order/arithmetic-theoretic over the scores.
* Go `time.Time` stamps are modelled as natural numbers (`time.Now()` becomes an
  explicit `now : Nat` argument).
* External state (the filesystem, the tmux server, the zoxide binary) is passed
  in explicitly; external commands performed by the code are logged as values of
  an `Effect` type.
* Go's byte-wise string comparison `<` equals code-point lexicographic order on
  the character list (a property of UTF-8), modelled as `List.Lex (· < ·)` over
  `String.data`.
-/

namespace Sesh

/-! ## internal/cache/recent.go -/

/-- RecentProject mirrors `cache.RecentProject` (recent.go lines 11-15):
name, path, and the `last_used` timestamp. -/
structure RecentProject where
  name : String
  path : String
  lastUsed : Nat
deriving DecidableEq

/-- RecentProjects mirrors `cache.RecentProjects` (recent.go lines 18-20). -/
structure RecentProjects where
  projects : List RecentProject
deriving DecidableEq

/-- Mirrors the removal loop at the start of `Add` (recent.go lines 78-83):
delete the first entry whose path equals `p`, then stop (`break`). -/
def removeByPath (p : String) : List RecentProject → List RecentProject
  | [] => []
  | e :: rest => if e.path = p then rest else e :: removeByPath p rest

/-- Mirrors `(*RecentProjects).Add` (recent.go lines 76-96): remove the first
entry with the same path, prepend a fresh entry stamped `now`, keep the first 3.
`now` models `time.Now()`. -/
def RecentProjects.Add (r : RecentProjects) (name path : String) (now : Nat) :
    RecentProjects :=
  { projects := (⟨name, path, now⟩ :: removeByPath path r.projects).take 3 }

/-- Mirrors `(*RecentProjects).GetTop3` (recent.go lines 99-104). -/
def RecentProjects.GetTop3 (r : RecentProjects) : List RecentProject :=
  r.projects.take 3

/-- The possible outcomes of the filesystem interaction inside `Load`
(recent.go lines 38-58): `getCachePath` fails, `os.ReadFile` reports
`IsNotExist`, `os.ReadFile` fails for another reason, or the file is read. -/
inductive FileRead
  | pathError
  | missing
  | unreadable
  | content (data : String)
deriving DecidableEq

/-- Mirrors `cache.Load` (recent.go lines 38-58). `unmarshal` stands for
`encoding/json.Unmarshal` into `RecentProjects`: `none` is a parse error, and
`some r` returns the parsed value verbatim (for a JSON document
`{"projects": [...]}` that is exactly the listed entries, however many there
are). `Except.error` models Go's `return nil, err`. -/
def Load (unmarshal : String → Option RecentProjects) :
    FileRead → Except String RecentProjects
  | .pathError => .ok ⟨[]⟩
  | .missing => .ok ⟨[]⟩
  | .unreadable => .error "read error"
  | .content d =>
    match unmarshal d with
    | none => .ok ⟨[]⟩
    | some r => .ok r

/-- The recency-cache invariant stated by the spec (data model section):
at most 3 entries, strictly descending by `last_used`. -/
def CacheInvariant (r : RecentProjects) : Prop :=
  r.projects.length ≤ 3 ∧
    r.projects.Pairwise (fun a b => b.lastUsed < a.lastUsed)

instance : DecidablePred CacheInvariant := fun r => by
  unfold CacheInvariant
  infer_instance

/-! ## internal/finder/finder.go -/

/-- Project mirrors `finder.Project` (finder.go lines 14-18); the `float64`
score field is modelled as an exact rational. -/
structure Project where
  name : String
  path : String
  score : ℚ
deriving DecidableEq

/-- The comparator passed to `sort.Slice` (finder.go lines 129-134):
`a` sorts before `b` when its score is higher, with the case-sensitive
byte-wise `<` on names as tie-break. -/
def projLess (a b : Project) : Prop :=
  b.score < a.score ∨ (a.score = b.score ∧ List.Lex (· < ·) a.name.data b.name.data)

instance : DecidableRel projLess := fun a b => by
  unfold projLess
  infer_instance

/-- The non-strict order the sorted output satisfies: `a` may precede `b`
exactly when `b` does not strictly precede `a` (`sort.Slice` guarantees no
later element is `less` than an earlier one). -/
def projLE (a b : Project) : Prop := ¬ projLess b a

instance : DecidableRel projLE := fun a b => by
  unfold projLE
  infer_instance

instance : IsAsymm Project projLess := by
  constructor
  intro a b h h2
  rcases h with hs | ⟨he, hl⟩
  · rcases h2 with hs2 | ⟨he2, -⟩
    · exact lt_asymm hs hs2
    · exact absurd he2 (ne_of_lt hs)
  · rcases h2 with hs2 | ⟨-, hl2⟩
    · exact absurd he (ne_of_lt hs2)
    · exact asymm hl hl2

instance : IsTotal Project projLE := by
  constructor
  intro a b
  by_cases h : projLess b a
  · exact Or.inr (asymm h)
  · exact Or.inl h

instance : IsTrans Project projLE := by
  constructor
  intro a b c hab hbc
  unfold projLE projLess at hab hbc ⊢
  push_neg at hab hbc ⊢
  refine ⟨le_trans hbc.1 hab.1, fun hca => ?_⟩
  have hba : b.score = a.score := le_antisymm hab.1 (hca ▸ hbc.1)
  have hcb : c.score = b.score := le_antisymm hbc.1 (hba ▸ hca.ge)
  intro hlex
  have hnl1 : ¬ List.Lex (· < ·) b.name.data a.name.data := hab.2 hba
  have hnl2 : ¬ List.Lex (· < ·) c.name.data b.name.data := hbc.2 hcb
  rcases trichotomous_of (List.Lex ((· < ·) : Char → Char → Prop))
      c.name.data b.name.data with h3 | h3 | h3
  · exact hnl2 h3
  · rw [h3] at hlex
    exact hnl1 hlex
  · exact hnl1 (IsTrans.trans _ _ _ h3 hlex)

/-- Mirrors the `recentPaths` map built in `applyFrecencyScores` (finder.go
lines 101-106): rank = index in `GetTop3()` plus 1, a later occurrence of the
same path overwriting an earlier one (Go map assignment). -/
def recentRank (r : RecentProjects) (path : String) : Option Nat :=
  ((r.GetTop3.enum.filter (fun ie => ie.2.path == path)).getLast?).map
    (fun ie => ie.1 + 1)

/-- The recency boost of finder.go line 122: `11000 - rank*1000`
(rank 1 ↦ 10000, rank 2 ↦ 9000, rank 3 ↦ 8000), 0 when absent. -/
def recencyBonus : Option Nat → ℚ
  | some rank => (11000 : ℚ) - rank * 1000
  | none => 0

/-- The score computation of finder.go lines 109-126 for one project:
zoxide contribution (0 when the map is nil or the path absent) plus the
recency boost. `z` models the `zoxideScores` map. -/
def assignScore (z : String → Option ℚ) (r : RecentProjects) (p : Project) :
    Project :=
  { p with score := (z p.path).getD 0 + recencyBonus (recentRank r p.path) }

/-- Mirrors `applyFrecencyScores` (finder.go lines 95-137): score every
project, then sort with the comparator. Go's `sort.Slice` (unstable) is
refined by a concrete sort producing an output sorted for `projLE`;
`z` models `zoxide.GetScores()` and `r` models `cache.Load()`. -/
def applyFrecencyScores (z : String → Option ℚ) (r : RecentProjects)
    (ps : List Project) : List Project :=
  List.insertionSort projLE (ps.map (assignScore z r))

/-! ## internal/tmux/session.go — name sanitization -/

/-- Decides the regexp character class `[a-zA-Z0-9_-]` of session.go line 34. -/
def isAllowedChar (c : Char) : Bool :=
  (65 ≤ c.toNat ∧ c.toNat ≤ 90) ∨ (97 ≤ c.toNat ∧ c.toNat ≤ 122) ∨
    (48 ≤ c.toNat ∧ c.toNat ≤ 57) ∨ c.toNat = 95 ∨ c.toNat = 45

/-- Mirrors `reg.ReplaceAllString(name, "-")` for the regexp
`[^a-zA-Z0-9_-]+` (session.go lines 34-35): each maximal run of disallowed
characters becomes one hyphen. `inRun` records whether the previous character
belonged to a disallowed run. -/
def collapseRuns : List Char → Bool → List Char
  | [], _ => []
  | c :: rest, inRun =>
    if isAllowedChar c then c :: collapseRuns rest false
    else if inRun then collapseRuns rest true
    else '-' :: collapseRuns rest true

/-- Mirrors `strings.Trim(sanitized, "-")` (session.go line 38): remove
leading and trailing hyphens (trimming the two ends commutes, so the
right end is trimmed first here). -/
def trimHyphens (l : List Char) : List Char :=
  (l.rdropWhile (· == '-')).dropWhile (· == '-')

/-- ASCII lowercasing of one character; agrees with Go's `strings.ToLower`
on the ASCII-only strings it is applied to here. -/
def toLowerChar (c : Char) : Char :=
  if 65 ≤ c.toNat ∧ c.toNat ≤ 90 then Char.ofNat (c.toNat + 32) else c

/-- Decides the lowercase image of the allowed class: `[a-z0-9_-]`. -/
def lowerAllowedChar (c : Char) : Bool :=
  (97 ≤ c.toNat ∧ c.toNat ≤ 122) ∨ (48 ≤ c.toNat ∧ c.toNat ≤ 57) ∨
    c.toNat = 95 ∨ c.toNat = 45

/-- Mirrors `tmux.SanitizeSessionName` (session.go lines 32-44): collapse
disallowed runs to hyphens, trim hyphens at both ends, lowercase. -/
def SanitizeSessionName (s : String) : String :=
  ⟨(trimHyphens (collapseRuns s.data false)).map toLowerChar⟩

/-! ## internal/tmux/session.go — session lifecycle, and main.go -/

/-- The externally observable operations this system performs, logged in
order: persisting the recency cache, `zoxide add`, `tmux has-session`,
`tmux new-session` (with its three-window setup), `tmux attach-session`
(process replacement), `tmux switch-client`. -/
inductive Effect
  | recencySave (r : RecentProjects)
  | zoxideVisit (path : String)
  | sessionQuery (name : String)
  | sessionCreate (name : String)
  | attach (name : String)
  | switchTo (name : String)
deriving DecidableEq

/-- Recognizes the session-creating effect. -/
def isCreateEffect : Effect → Bool
  | .sessionCreate _ => true
  | _ => false

/-- The externally owned tmux server state, at the granularity the claims
need: the set of existing session names. -/
structure TmuxState where
  sessions : List String
deriving DecidableEq

/-- Mirrors `tmux.SessionExists` (session.go lines 15-28) under the
no-external-interference assumption: `tmux has-session` exits 0 exactly when
the session exists (exit code 1, "not found", is a normal `false`). -/
def SessionExists (st : TmuxState) (name : String) : Bool :=
  st.sessions.contains name

/-- Mirrors `tmux.CreateSession` (session.go lines 63-104) at session
granularity: `tmux new-session -d -s name` fails when the name is already
taken, otherwise registers the session. The three named windows and their
startup keystrokes are internal to the created session and are elided; under
no external interference each of those steps succeeds. -/
def CreateSession (st : TmuxState) (p : Project) :
    Except String (TmuxState × List Effect) :=
  let name := SanitizeSessionName p.name
  if SessionExists st name then .error "failed to create tmux session"
  else .ok (⟨name :: st.sessions⟩, [.sessionCreate name])

/-- Mirrors `tmux.GetOrCreateSession` (session.go lines 123-154):
require tmux on PATH, query existence, create when absent, then switch
(inside tmux, `insideTmux` models the `TMUX` environment marker) or attach
(otherwise). Returns the new server state and the logged effects. -/
def GetOrCreateSession (tmuxInstalled insideTmux : Bool) (st : TmuxState)
    (p : Project) : Except String (TmuxState × List Effect) :=
  let name := SanitizeSessionName p.name
  if tmuxInstalled = false then .error "tmux is not installed" else
  if SessionExists st name then
    .ok (st, [.sessionQuery name,
      if insideTmux then .switchTo name else .attach name])
  else
    match CreateSession st p with
    | .error e => .error e
    | .ok (st2, acts) =>
      .ok (st2, .sessionQuery name :: acts ++
        [if insideTmux then .switchTo name else .attach name])

/-- The contractually possible results of `ui.SelectProject` as used by
`runInteractive` (main.go lines 267-275): an error, a nil selection
(cancellation), or a chosen project. -/
inductive SelectorOutcome
  | failed
  | cancelled
  | chosen (p : Project)

/-- Mirrors `runInteractive` (main.go lines 246-291). `configOk` models
`config.LoadConfig` succeeding, `projects` the result of
`finder.FindGitProjects`, `outcome` the selector result, `loadResult` the
`cache.Load` result at the recording step (`none` models Go `nil`), `now` the
stamping time, and `st` the tmux server state. Returns the logged effects. -/
def runInteractive (configOk : Bool) (projects : List Project)
    (outcome : SelectorOutcome) (loadResult : Option RecentProjects)
    (now : Nat) (tmuxInstalled insideTmux : Bool) (st : TmuxState) :
    Except String (List Effect) :=
  if configOk = false then .error "failed to load config" else
  if projects.isEmpty then .error "no Git projects found" else
  match outcome with
  | .failed => .error "failed to select project"
  | .cancelled => .ok []
  | .chosen p =>
    let cacheEffects : List Effect :=
      match loadResult with
      | some recent => [.recencySave (recent.Add p.name p.path now)]
      | none => []
    match GetOrCreateSession tmuxInstalled insideTmux st p with
    | .error e => .error e
    | .ok (_, acts) => .ok (cacheEffects ++ [.zoxideVisit p.path] ++ acts)

/-! ## internal/zoxide/zoxide.go -/

/-- The possible outcomes of the external `zoxide query -l -s` invocation in
`GetScores` (zoxide.go lines 22-58): the binary is absent, the command fails
(non-zero exit), or it produces output `s`. -/
inductive ZoxideOutcome
  | notInstalled
  | queryFailed
  | output (s : String)

/-- Mirrors `strings.TrimSpace` on a character list. -/
def trimSpaceList (l : List Char) : List Char :=
  (l.rdropWhile Char.isWhitespace).dropWhile Char.isWhitespace

/-- Mirrors `strings.Split(s, sep)` for a one-character separator. -/
def splitOnChar (sep : Char) : List Char → List (List Char)
  | [] => [[]]
  | c :: rest =>
    match splitOnChar sep rest with
    | [] => [[]]
    | g :: gs => if c = sep then [] :: g :: gs else (c :: g) :: gs

/-- Mirrors `strings.SplitN(s, " ", 2)` restricted to its two-part result:
`none` when there is no space (one part), otherwise the text before the
first space and everything after it. -/
def splitFirstSpace (l : List Char) : Option (List Char × List Char) :=
  match l.dropWhile (· != ' ') with
  | [] => none
  | _ :: tail => some (l.takeWhile (· != ' '), tail)

/-- Mirrors one iteration of the parsing loop of `GetScores` (zoxide.go lines
38-55): skip empty lines, lines without a space, and lines whose first field
does not parse as a float; otherwise yield `(path, score)`. `pf` models
`strconv.ParseFloat(·, 64)` (`none` is a parse error). -/
def parseLine (pf : String → Option ℚ) (line : String) :
    Option (String × ℚ) :=
  if line = "" then none else
  match splitFirstSpace (trimSpaceList line.data) with
  | none => none
  | some (a, b) =>
    match pf ⟨a⟩ with
    | none => none
    | some sc => some (⟨b⟩, sc)

/-- One step of the score-map construction: Go's `scores[path] = score`
(assignment overwrites). -/
def stepScore (pf : String → Option ℚ) (m : String → Option ℚ)
    (line : String) : String → Option ℚ :=
  match parseLine pf line with
  | none => m
  | some (pa, sc) => fun q => if q = pa then some sc else m q

/-- The whole parsing loop of `GetScores` over the split lines. -/
def collectScores (pf : String → Option ℚ) (lines : List String) :
    String → Option ℚ :=
  lines.foldl (stepScore pf) (fun _ => none)

/-- Mirrors `zoxide.GetScores` (zoxide.go lines 22-58). The first component
models the returned map (`none` is Go's `nil` map), the second the returned
error. Absence of the binary returns `(nil, nil)`; a failed query returns an
empty map and nil error; otherwise the trimmed output is split on newlines
and parsed line by line. -/
def GetScores (pf : String → Option ℚ) :
    ZoxideOutcome → Option (String → Option ℚ) × Option String
  | .notInstalled => (none, none)
  | .queryFailed => (some (fun _ => none), none)
  | .output s =>
    (some (collectScores pf ((splitOnChar '\n' (trimSpaceList s.data)).map
      fun l => ⟨l⟩)), none)

/-! ## Helper lemmas about the recency cache -/

theorem removeByPath_sublist (p : String) (l : List RecentProject) :
    (removeByPath p l).Sublist l := by
  induction l with
  | nil => simp [removeByPath]
  | cons e rest ih =>
    by_cases h : e.path = p
    · simp [removeByPath, h]
    · simpa [removeByPath, h] using ih.cons₂ e

theorem removeByPath_eq_filter (p : String) (l : List RecentProject)
    (h : (l.map RecentProject.path).Nodup) :
    removeByPath p l = l.filter (fun e => e.path != p) := by
  induction l with
  | nil => rfl
  | cons e rest ih =>
    simp only [List.map_cons, List.nodup_cons] at h
    by_cases hp : e.path = p
    · have hrest : ∀ x ∈ rest, (x.path != p) = true := by
        intro x hx
        have hne : x.path ≠ p := by
          intro hxp
          apply h.1
          rw [hp, ← hxp]
          exact List.mem_map_of_mem RecentProject.path hx
        simpa using hne
      rw [removeByPath, if_pos hp, List.filter_cons]
      simp only [hp, bne_self_eq_false, if_neg Bool.false_ne_true]
      exact (List.filter_eq_self.mpr hrest).symm
    · rw [removeByPath, if_neg hp, List.filter_cons]
      simp only [bne_iff_ne, ne_eq, hp, not_false_eq_true, if_pos]
      rw [ih h.2]

theorem any_path_length_pos (p : String) (l : List RecentProject)
    (h : l.any (fun e => e.path == p) = true) : 1 ≤ l.length := by
  obtain ⟨x, hx, -⟩ := List.any_eq_true.mp h
  exact List.length_pos.mpr (List.ne_nil_of_mem hx)

theorem length_filter_ne_path (p : String) (l : List RecentProject)
    (h : (l.map RecentProject.path).Nodup) :
    (l.filter (fun e => e.path != p)).length =
      l.length - (if l.any (fun e => e.path == p) then 1 else 0) := by
  induction l with
  | nil => rfl
  | cons e rest ih =>
    simp only [List.map_cons, List.nodup_cons] at h
    by_cases hp : e.path = p
    · have hrest : ∀ x ∈ rest, ¬ x.path = p := by
        intro x hx hxp
        apply h.1
        rw [hp, ← hxp]
        exact List.mem_map_of_mem RecentProject.path hx
      have hfil : rest.filter (fun e => e.path != p) = rest :=
        List.filter_eq_self.mpr (fun x hx => by simpa using hrest x hx)
      have hany : (e :: rest).any (fun e => e.path == p) = true := by
        simp [hp]
      rw [List.filter_cons, if_neg (by simp [hp]), hfil, hany, if_pos rfl]
      simp
    · have hany : ((e :: rest).any (fun e => e.path == p))
          = (rest.any (fun e => e.path == p)) := by
        simp [hp]
      rw [List.filter_cons, if_pos (by simpa using hp), List.length_cons,
        List.length_cons, hany, ih h.2]
      rcases hany2 : rest.any (fun e => e.path == p) with _ | _
      · simp
      · have := any_path_length_pos p rest hany2
        simp only [if_true]
        omega

/-! ## Claim theorems on the recency cache (C1, C5, C6) -/

/-- C1: after `Add(n, p)` on a cache satisfying the data-model invariant
(at most 3 entries, no duplicate paths), the length is
`min 3 (previous length + (1 if p was absent else 0))`, the front entry is
`⟨n, p, now⟩` (stamped with the current time), the remaining entries are the
previous non-`p` entries in their original relative order truncated to the
first 2, and at most one entry is evicted. -/
theorem C1_add_spec (r : RecentProjects) (n p : String) (now : Nat)
    (hnd : (r.projects.map RecentProject.path).Nodup)
    (hlen : r.projects.length ≤ 3) :
    (r.Add n p now).projects.length
        = min 3 (r.projects.length +
            (if r.projects.any (fun e => e.path == p) then 0 else 1)) ∧
      (r.Add n p now).projects.head? = some ⟨n, p, now⟩ ∧
      (r.Add n p now).projects.tail
        = (r.projects.filter (fun e => e.path != p)).take 2 ∧
      r.projects.length +
          (if r.projects.any (fun e => e.path == p) then 0 else 1) -
          (r.Add n p now).projects.length ≤ 1 := by
  have hrm := removeByPath_eq_filter p r.projects hnd
  have hfl := length_filter_ne_path p r.projects hnd
  have hadd : (r.Add n p now).projects
      = ⟨n, p, now⟩ :: (r.projects.filter (fun e => e.path != p)).take 2 := by
    rw [RecentProjects.Add, hrm, List.take_succ_cons]
  refine ⟨?_, by rw [hadd]; rfl, by rw [hadd]; rfl, ?_⟩
  · rw [hadd]
    simp only [List.length_cons, List.length_take, hfl]
    by_cases hany : r.projects.any (fun e => e.path == p) = true
    · have := any_path_length_pos p r.projects hany
      simp only [hany, if_pos rfl, if_true]
      omega
    · rw [Bool.not_eq_true] at hany
      simp only [hany, Bool.false_eq_true, if_false]
      omega
  · rw [hadd]
    simp only [List.length_cons, List.length_take, hfl]
    by_cases hany : r.projects.any (fun e => e.path == p) = true
    · have := any_path_length_pos p r.projects hany
      simp only [hany, if_pos rfl, if_true]
      omega
    · rw [Bool.not_eq_true] at hany
      simp only [hany, Bool.false_eq_true, if_false]
      omega

/-- C1 witness: adding a fresh path `/w` to the full cache `[x, y, z]`
yields `[w, x, y]` with `z` evicted. -/
theorem C1_add_spec_witness :
    (RecentProjects.Add ⟨[⟨"x", "/x", 30⟩, ⟨"y", "/y", 20⟩, ⟨"z", "/z", 10⟩]⟩
          "w" "/w" 40).projects.length
        = min 3 (([⟨"x", "/x", 30⟩, ⟨"y", "/y", 20⟩, ⟨"z", "/z", 10⟩] :
            List RecentProject).length +
            (if ([⟨"x", "/x", 30⟩, ⟨"y", "/y", 20⟩, ⟨"z", "/z", 10⟩] :
                List RecentProject).any (fun e => e.path == "/w")
              then 0 else 1)) ∧
      (RecentProjects.Add ⟨[⟨"x", "/x", 30⟩, ⟨"y", "/y", 20⟩,
            ⟨"z", "/z", 10⟩]⟩ "w" "/w" 40).projects.head?
        = some ⟨"w", "/w", 40⟩ ∧
      (RecentProjects.Add ⟨[⟨"x", "/x", 30⟩, ⟨"y", "/y", 20⟩,
            ⟨"z", "/z", 10⟩]⟩ "w" "/w" 40).projects.tail
        = (([⟨"x", "/x", 30⟩, ⟨"y", "/y", 20⟩, ⟨"z", "/z", 10⟩] :
            List RecentProject).filter (fun e => e.path != "/w")).take 2 ∧
      ([⟨"x", "/x", 30⟩, ⟨"y", "/y", 20⟩, ⟨"z", "/z", 10⟩] :
            List RecentProject).length +
          (if ([⟨"x", "/x", 30⟩, ⟨"y", "/y", 20⟩, ⟨"z", "/z", 10⟩] :
              List RecentProject).any (fun e => e.path == "/w") then 0 else 1) -
          (RecentProjects.Add ⟨[⟨"x", "/x", 30⟩, ⟨"y", "/y", 20⟩,
            ⟨"z", "/z", 10⟩]⟩ "w" "/w" 40).projects.length ≤ 1 :=
  C1_add_spec ⟨[⟨"x", "/x", 30⟩, ⟨"y", "/y", 20⟩, ⟨"z", "/z", 10⟩]⟩
    "w" "/w" 40 (by decide) (by decide)

/-- C5 counterexample: when reading the cache file fails for a reason other
than non-existence, `Load` returns an error and no cache, contradicting
"load never returns an error". -/
theorem C5_counterexample :
    Load (fun _ => none) .unreadable = .error "read error" ∧
      (Load (fun _ => none) .unreadable).toOption = none :=
  ⟨rfl, rfl⟩

/-- C5 (amended): `Load` returns a cache and no error when the cache path
cannot be determined, when the file is missing, and when the content does not
parse (an empty cache) or parses (the parsed cache); but when reading the
file fails for any other reason the error is returned to the caller. -/
theorem C5_load_degrades (u : String → Option RecentProjects) :
    Load u .pathError = .ok ⟨[]⟩ ∧
      Load u .missing = .ok ⟨[]⟩ ∧
      (∀ d, u d = none → Load u (.content d) = .ok ⟨[]⟩) ∧
      (∀ d r, u d = some r → Load u (.content d) = .ok r) ∧
      Load u .unreadable = .error "read error" := by
  refine ⟨rfl, rfl, ?_, ?_, rfl⟩
  · intro d hd
    simp [Load, hd]
  · intro d r hd
    simp [Load, hd]

/-- C5 witness: a parse failure degrades to the empty cache. -/
theorem C5_load_degrades_witness :
    Load (fun _ => none) (.content "not json") = .ok ⟨[]⟩ :=
  (C5_load_degrades (fun _ => none)).2.2.1 "not json" rfl

/-- C6 counterexample: `Load` does not validate the parsed content, so a
persisted document with four entries loads as a four-entry cache, violating
the `length ≤ 3` invariant. -/
theorem C6_counterexample :
    Load (fun _ => some ⟨[⟨"a", "/a", 4⟩, ⟨"b", "/b", 3⟩, ⟨"c", "/c", 2⟩,
          ⟨"d", "/d", 1⟩]⟩) (.content "a four-entry JSON document")
        = .ok ⟨[⟨"a", "/a", 4⟩, ⟨"b", "/b", 3⟩, ⟨"c", "/c", 2⟩,
          ⟨"d", "/d", 1⟩]⟩ ∧
      ¬ CacheInvariant ⟨[⟨"a", "/a", 4⟩, ⟨"b", "/b", 3⟩, ⟨"c", "/c", 2⟩,
          ⟨"d", "/d", 1⟩]⟩ :=
  ⟨rfl, by decide⟩

/-- C6 (amended): `Add` always leaves at most 3 entries, and preserves the
strict descent by `last_used` provided the stamping time is later than every
stored stamp; `Load` returns the parsed content unvalidated, so a loaded
cache satisfies the invariant exactly when the empty-cache fallback is taken
or the parsed content itself satisfies it. -/
theorem C6_cache_invariant (r : RecentProjects) (n p : String) (now : Nat)
    (hdesc : r.projects.Pairwise (fun a b => b.lastUsed < a.lastUsed))
    (hfresh : ∀ e ∈ r.projects, e.lastUsed < now) :
    CacheInvariant (r.Add n p now) ∧
      ∀ (u : String → Option RecentProjects) (fr : FileRead)
        (res : RecentProjects),
        (∀ d r2, u d = some r2 → CacheInvariant r2) →
        Load u fr = .ok res → CacheInvariant res := by
  constructor
  · constructor
    · simp [RecentProjects.Add]
    · apply List.Pairwise.sublist (List.take_sublist _ _)
      rw [List.pairwise_cons]
      refine ⟨fun e he => hfresh e ((removeByPath_sublist p _).subset he), ?_⟩
      exact hdesc.sublist (removeByPath_sublist p _)
  · intro u fr res hu hload
    cases fr with
    | pathError =>
      simp only [Load, Except.ok.injEq] at hload
      subst hload
      exact ⟨by simp, by simp⟩
    | missing =>
      simp only [Load, Except.ok.injEq] at hload
      subst hload
      exact ⟨by simp, by simp⟩
    | unreadable => simp [Load] at hload
    | content d =>
      cases hud : u d with
      | none =>
        rw [Load, hud] at hload
        simp only [Except.ok.injEq] at hload
        subst hload
        exact ⟨by simp, by simp⟩
      | some r2 =>
        rw [Load, hud] at hload
        simp only [Except.ok.injEq] at hload
        subst hload
        exact hu d _ hud

/-- C6 witness: adding a later-stamped entry to a one-entry descending cache
keeps the invariant. -/
theorem C6_cache_invariant_witness :
    CacheInvariant (RecentProjects.Add ⟨[⟨"a", "/a", 5⟩]⟩ "b" "/b" 10) :=
  (C6_cache_invariant ⟨[⟨"a", "/a", 5⟩]⟩ "b" "/b" 10 (by decide)
    (by decide)).1

/-! ## Claim theorems on the ranking engine (C2, C3, C4) -/

/-- C2: ranking assigns each project the oracle score of its path (0 when
absent) plus the recency bonus (10000/9000/8000 for ranks 1/2/3, 0 when the
path is absent from the cache), and the output is a permutation of the scored
candidates sorted descending by score with ties broken by ascending
case-sensitive name order. -/
theorem C2_rank_spec (z : String → Option ℚ) (r : RecentProjects)
    (ps : List Project) :
    recencyBonus (some 1) = 10000 ∧ recencyBonus (some 2) = 9000 ∧
      recencyBonus (some 3) = 8000 ∧ recencyBonus none = 0 ∧
      (applyFrecencyScores z r ps).Perm (ps.map (assignScore z r)) ∧
      (∀ q ∈ applyFrecencyScores z r ps,
        q.score = (z q.path).getD 0 + recencyBonus (recentRank r q.path)) ∧
      (applyFrecencyScores z r ps).Sorted projLE := by
  refine ⟨by norm_num [recencyBonus], by norm_num [recencyBonus],
    by norm_num [recencyBonus], rfl, List.perm_insertionSort projLE _,
    ?_, List.sorted_insertionSort projLE _⟩
  intro q hq
  have hq2 : q ∈ ps.map (assignScore z r) :=
    ((List.perm_insertionSort projLE _).mem_iff).mp hq
  obtain ⟨p0, -, rfl⟩ := List.mem_map.mp hq2
  simp [assignScore]

/-- C2 witness: with the cache holding `/a` at rank 1 and no oracle data,
the single candidate `/a` is scored `0 + recencyBonus (rank 1)`. -/
theorem C2_rank_spec_witness :
    (⟨"a", "/a", 10000⟩ : Project).score
      = ((fun _ => none : String → Option ℚ) (⟨"a", "/a", 10000⟩ :
          Project).path).getD 0 +
        recencyBonus (recentRank ⟨[⟨"a", "/a", 1⟩]⟩ (⟨"a", "/a", 10000⟩ :
          Project).path) :=
  (C2_rank_spec (fun _ => none) ⟨[⟨"a", "/a", 1⟩]⟩
      [⟨"a", "/a", 0⟩]).2.2.2.2.2.1 ⟨"a", "/a", 10000⟩
    (by norm_num +decide [applyFrecencyScores, assignScore, recentRank,
      RecentProjects.GetTop3, recencyBonus, List.insertionSort,
      List.orderedInsert])

/-- C3 counterexample: two distinct projects sharing score and name are
unordered by the comparator (trichotomy fails, so it is not a total order
over the candidates), and the same candidate set presented in two orders
ranks to two different sequences. -/
theorem C3_counterexample :
    (⟨"dup", "/x", 0⟩ : Project) ≠ ⟨"dup", "/y", 0⟩ ∧
      ¬ projLess ⟨"dup", "/x", 0⟩ ⟨"dup", "/y", 0⟩ ∧
      ¬ projLess ⟨"dup", "/y", 0⟩ ⟨"dup", "/x", 0⟩ ∧
      applyFrecencyScores (fun _ => none) ⟨[]⟩
          [⟨"dup", "/x", 0⟩, ⟨"dup", "/y", 0⟩]
        ≠ applyFrecencyScores (fun _ => none) ⟨[]⟩
          [⟨"dup", "/y", 0⟩, ⟨"dup", "/x", 0⟩] := by
  refine ⟨by decide, by decide, by decide, ?_⟩
  norm_num +decide [applyFrecencyScores, assignScore, recencyBonus,
    recentRank, RecentProjects.GetTop3, List.insertionSort,
    List.orderedInsert, projLE, projLess]

/-- C3 (amended): ranking is a deterministic function of the input sequence
and the fixed oracle/cache snapshots; the comparison is a total preorder
(total and transitive), and it is antisymmetric — hence a total order — on
candidates among which no two distinct projects share both combined score and
name. -/
theorem C3_rank_deterministic :
    (∀ (z : String → Option ℚ) (r : RecentProjects) (ps1 ps2 : List Project),
        ps1 = ps2 → applyFrecencyScores z r ps1 = applyFrecencyScores z r ps2) ∧
      (∀ a b, projLE a b ∨ projLE b a) ∧
      (∀ a b c, projLE a b → projLE b c → projLE a c) ∧
      (∀ a b, projLE a b → projLE b a → a.score = b.score ∧ a.name = b.name) := by
  refine ⟨fun z r ps1 ps2 h => by rw [h], IsTotal.total,
    fun a b c hab hbc => IsTrans.trans a b c hab hbc, ?_⟩
  intro a b hab hba
  unfold projLE projLess at hab hba
  push_neg at hab hba
  have hs : a.score = b.score := le_antisymm hba.1 hab.1
  refine ⟨hs, String.ext ?_⟩
  rcases trichotomous_of (List.Lex ((· < ·) : Char → Char → Prop))
      a.name.data b.name.data with h3 | h3 | h3
  · exact absurd h3 (hba.2 hs)
  · exact h3
  · exact absurd h3 (hab.2 hs.symm)

/-- C3 witness: transitivity of the comparison at concrete projects. -/
theorem C3_rank_deterministic_witness :
    projLE ⟨"a", "/a", 5⟩ ⟨"c", "/c", 3⟩ :=
  C3_rank_deterministic.2.2.1 ⟨"a", "/a", 5⟩ ⟨"b", "/b", 4⟩ ⟨"c", "/c", 3⟩
    (by decide) (by decide)

/-- C4: a project at recency rank 3 (bonus 8000, non-negative oracle score)
scores strictly above a project absent from the recency cache with oracle
score below 8000, strictly precedes it under the comparator, and appears
strictly before it in the ranked output. -/
theorem C4_recency_dominates (z : String → Option ℚ) (r : RecentProjects)
    (ps : List Project) (a b : Project)
    (ha3 : recentRank r a.path = some 3) (hbn : recentRank r b.path = none)
    (hza : 0 ≤ (z a.path).getD 0) (hzb : (z b.path).getD 0 < 8000) :
    (assignScore z r b).score < (assignScore z r a).score ∧
      projLess (assignScore z r a) (assignScore z r b) ∧
      ∀ i j : Fin (applyFrecencyScores z r ps).length,
        (applyFrecencyScores z r ps).get i = assignScore z r a →
        (applyFrecencyScores z r ps).get j = assignScore z r b → i < j := by
  have hscore : (assignScore z r b).score < (assignScore z r a).score := by
    simp only [assignScore, ha3, hbn, recencyBonus]
    norm_num
    linarith
  refine ⟨hscore, Or.inl hscore, ?_⟩
  intro i j hi hj
  by_contra hc
  push_neg at hc
  have hsorted : (applyFrecencyScores z r ps).Sorted projLE :=
    List.sorted_insertionSort projLE _
  rcases lt_or_eq_of_le hc with hlt | heq
  · have hrel := hsorted.rel_get_of_lt hlt
    rw [hj, hi] at hrel
    exact hrel (Or.inl hscore)
  · rw [heq] at hj
    rw [hi] at hj
    exact absurd (congrArg Project.score hj) (ne_of_gt hscore)

/-- C4 witness: the score domination at a concrete cache and oracle. -/
theorem C4_recency_dominates_witness :
    (assignScore
        (fun p => if p = "/a" then some 5 else if p = "/b" then some 7
          else none)
        ⟨[⟨"r1", "/1", 30⟩, ⟨"r2", "/2", 20⟩, ⟨"a", "/a", 10⟩]⟩
        ⟨"b", "/b", 0⟩).score <
      (assignScore
        (fun p => if p = "/a" then some 5 else if p = "/b" then some 7
          else none)
        ⟨[⟨"r1", "/1", 30⟩, ⟨"r2", "/2", 20⟩, ⟨"a", "/a", 10⟩]⟩
        ⟨"a", "/a", 0⟩).score :=
  (C4_recency_dominates
      (fun p => if p = "/a" then some 5 else if p = "/b" then some 7
        else none)
      ⟨[⟨"r1", "/1", 30⟩, ⟨"r2", "/2", 20⟩, ⟨"a", "/a", 10⟩]⟩ []
      ⟨"a", "/a", 0⟩ ⟨"b", "/b", 0⟩ (by decide) (by decide) (by decide)
      (by decide)).1

/-! ## Helper lemmas about sanitization (C7) -/

theorem toNat_toLowerChar (c : Char) (h1 : 65 ≤ c.toNat) (h2 : c.toNat ≤ 90) :
    (toLowerChar c).toNat = c.toNat + 32 := by
  rw [toLowerChar, if_pos ⟨h1, h2⟩]
  have hv : (c.toNat + 32).isValidChar := Or.inl (by omega)
  unfold Char.ofNat
  rw [dif_pos hv]
  unfold Char.ofNatAux Char.toNat
  simp [UInt32.toNat]

theorem toLowerChar_eq_self (c : Char)
    (h : ¬ (65 ≤ c.toNat ∧ c.toNat ≤ 90)) : toLowerChar c = c := by
  rw [toLowerChar, if_neg h]

theorem lowerAllowed_toLowerChar (c : Char) (h : isAllowedChar c = true) :
    lowerAllowedChar (toLowerChar c) = true := by
  simp only [isAllowedChar, decide_eq_true_eq] at h
  by_cases hu : 65 ≤ c.toNat ∧ c.toNat ≤ 90
  · have := toNat_toLowerChar c hu.1 hu.2
    simp only [lowerAllowedChar, decide_eq_true_eq, this]
    omega
  · rw [toLowerChar_eq_self c hu]
    simp only [lowerAllowedChar, decide_eq_true_eq]
    omega

theorem isAllowed_of_lowerAllowed (c : Char) (h : lowerAllowedChar c = true) :
    isAllowedChar c = true := by
  simp only [lowerAllowedChar, decide_eq_true_eq] at h
  simp only [isAllowedChar, decide_eq_true_eq]
  omega

theorem toLowerChar_fixed (c : Char) (h : lowerAllowedChar c = true) :
    toLowerChar c = c := by
  simp only [lowerAllowedChar, decide_eq_true_eq] at h
  exact toLowerChar_eq_self c (by omega)

theorem toLowerChar_ne_hyphen (c : Char) (h : (c == '-') = false) :
    (toLowerChar c == '-') = false := by
  by_cases hu : 65 ≤ c.toNat ∧ c.toNat ≤ 90
  · have ht := toNat_toLowerChar c hu.1 hu.2
    have : toLowerChar c ≠ '-' := by
      intro heq
      have h2 := congrArg Char.toNat heq
      rw [ht] at h2
      have h45 : ('-').toNat = 45 := rfl
      omega
    simpa using this
  · rw [toLowerChar_eq_self c hu]
    exact h

theorem mem_collapseRuns (l : List Char) (flag : Bool) (c : Char)
    (hc : c ∈ collapseRuns l flag) : isAllowedChar c = true := by
  induction l generalizing flag with
  | nil => simp [collapseRuns] at hc
  | cons a rest ih =>
    by_cases ha : isAllowedChar a
    · rw [collapseRuns, if_pos ha] at hc
      rcases List.mem_cons.mp hc with rfl | hc2
      · exact ha
      · exact ih false hc2
    · rw [collapseRuns, if_neg ha] at hc
      cases flag with
      | true =>
        rw [if_pos rfl] at hc
        exact ih true hc
      | false =>
        rw [if_neg Bool.false_ne_true] at hc
        rcases List.mem_cons.mp hc with rfl | hc2
        · decide
        · exact ih true hc2

theorem collapseRuns_eq_self (l : List Char)
    (h : ∀ c ∈ l, isAllowedChar c = true) : collapseRuns l false = l := by
  induction l with
  | nil => rfl
  | cons a rest ih =>
    have ha := h a (List.mem_cons_self a rest)
    rw [collapseRuns, if_pos ha, ih (fun c hc => h c (List.mem_cons_of_mem a hc))]

theorem mem_trimHyphens (l : List Char) (c : Char) (hc : c ∈ trimHyphens l) :
    c ∈ l := by
  rw [trimHyphens] at hc
  have h1 := (List.dropWhile_suffix (· == '-')).subset hc
  have h2 : c ∈ (l.reverse.dropWhile (· == '-')) := by
    simpa [List.rdropWhile] using h1
  have h3 := (List.dropWhile_suffix (· == '-')).subset h2
  simpa using h3

theorem trimHyphens_head?_ne (l : List Char) (c : Char)
    (h : (trimHyphens l).head? = some c) : (c == '-') = false := by
  have hne : trimHyphens l ≠ [] := by
    intro hnil
    rw [hnil] at h
    simp at h
  rw [trimHyphens] at h hne
  have hnot := List.head_dropWhile_not (· == '-') (l.rdropWhile (· == '-')) hne
  have hgl : some (((l.rdropWhile (· == '-')).dropWhile (· == '-')).head hne)
      = some c := by
    rw [← List.head?_eq_head hne, h]
  rw [Option.some.inj hgl] at hnot
  exact hnot

theorem trimHyphens_getLast?_ne (l : List Char) (c : Char)
    (h : (trimHyphens l).getLast? = some c) : (c == '-') = false := by
  have hne : trimHyphens l ≠ [] := by
    intro hnil
    rw [hnil] at h
    simp at h
  rw [trimHyphens] at h hne
  obtain ⟨t, ht⟩ := List.dropWhile_suffix (p := (· == '-'))
    (l := l.rdropWhile (· == '-'))
  have hmne : l.rdropWhile (· == '-') ≠ [] := by
    intro hnil
    rw [hnil] at hne
    simp [List.dropWhile] at hne
  have hlast : (l.rdropWhile (· == '-')).getLast? = some c := by
    rw [← ht, List.getLast?_append_of_ne_nil t hne, h]
  have hnot := List.rdropWhile_last_not (· == '-') l hmne
  have hgl : some ((l.rdropWhile (· == '-')).getLast hmne) = some c := by
    rw [← List.getLast?_eq_getLast _ hmne, hlast]
  rw [Option.some.inj hgl] at hnot
  simpa using hnot

theorem trimHyphens_eq_self (l : List Char)
    (hh : ∀ c, l.head? = some c → (c == '-') = false)
    (hl : ∀ c, l.getLast? = some c → (c == '-') = false) :
    trimHyphens l = l := by
  have h1 : l.rdropWhile (· == '-') = l := by
    rw [List.rdropWhile_eq_self_iff]
    intro hne
    rw [hl (l.getLast hne) (List.getLast?_eq_getLast l hne)]
    simp
  rw [trimHyphens, h1]
  cases l with
  | nil => rfl
  | cons a t =>
    rw [List.dropWhile_cons]
    rw [hh a rfl]
    simp

theorem map_fixed (f : Char → Char) (l : List Char)
    (h : ∀ c ∈ l, f c = c) : l.map f = l := by
  induction l with
  | nil => rfl
  | cons a rest ih =>
    rw [List.map_cons, h a (List.mem_cons_self a rest),
      ih (fun c hc => h c (List.mem_cons_of_mem a hc))]

/-- C7: session-name sanitization (lowercase, collapse runs of characters
outside `[a-zA-Z0-9_-]` to one hyphen, trim leading/trailing hyphens) is a
total function, idempotent on every input, and maps `"My Project!"` to
`"my-project"` and `""` to `""`. -/
theorem C7_sanitize_idempotent :
    (∀ x, SanitizeSessionName (SanitizeSessionName x) = SanitizeSessionName x) ∧
      SanitizeSessionName "My Project!" = "my-project" ∧
      SanitizeSessionName "" = "" := by
  refine ⟨?_, by decide, rfl⟩
  intro x
  have hdata : (SanitizeSessionName x).data
      = (trimHyphens (collapseRuns x.data false)).map toLowerChar := rfl
  have hylow : ∀ c ∈ (SanitizeSessionName x).data, lowerAllowedChar c = true := by
    rw [hdata]
    intro c hc
    obtain ⟨c2, hc2, rfl⟩ := List.mem_map.mp hc
    exact lowerAllowed_toLowerChar c2
      (mem_collapseRuns x.data false c2 (mem_trimHyphens _ c2 hc2))
  have hcol : collapseRuns (SanitizeSessionName x).data false
      = (SanitizeSessionName x).data :=
    collapseRuns_eq_self _ (fun c hc => isAllowed_of_lowerAllowed c (hylow c hc))
  have hhead : ∀ c, (SanitizeSessionName x).data.head? = some c →
      (c == '-') = false := by
    intro c hc
    rw [hdata, List.head?_map] at hc
    cases hw : (trimHyphens (collapseRuns x.data false)).head? with
    | none =>
      rw [hw] at hc
      simp at hc
    | some c2 =>
      rw [hw] at hc
      simp only [Option.map_some'] at hc
      rw [← Option.some.inj hc]
      exact toLowerChar_ne_hyphen c2 (trimHyphens_head?_ne _ c2 hw)
  have hlast : ∀ c, (SanitizeSessionName x).data.getLast? = some c →
      (c == '-') = false := by
    intro c hc
    rw [hdata, List.getLast?_map] at hc
    cases hw : (trimHyphens (collapseRuns x.data false)).getLast? with
    | none =>
      rw [hw] at hc
      simp at hc
    | some c2 =>
      rw [hw] at hc
      simp only [Option.map_some'] at hc
      rw [← Option.some.inj hc]
      exact toLowerChar_ne_hyphen c2 (trimHyphens_getLast?_ne _ c2 hw)
  have htrim := trimHyphens_eq_self _ hhead hlast
  have hmap : (SanitizeSessionName x).data.map toLowerChar
      = (SanitizeSessionName x).data :=
    map_fixed _ _ (fun c hc => toLowerChar_fixed c (hylow c hc))
  apply String.ext
  show (trimHyphens (collapseRuns (SanitizeSessionName x).data false)).map
      toLowerChar = (SanitizeSessionName x).data
  rw [hcol, htrim, hmap]

/-! ## Claim theorems on the session lifecycle and entry point (C8, C9) -/

/-- C8: getOrCreate is idempotent — starting from a state without the
session, the first call creates exactly one session and succeeds, and the
second call observes the existing session, creates nothing, leaves the state
unchanged, and goes straight to attach (outside tmux) or switch (inside). -/
theorem C8_getOrCreate_idempotent (st : TmuxState) (p : Project)
    (insideTmux : Bool)
    (hnew : SessionExists st (SanitizeSessionName p.name) = false) :
    ∃ st1 acts1 acts2,
      GetOrCreateSession true insideTmux st p = .ok (st1, acts1) ∧
      GetOrCreateSession true insideTmux st1 p = .ok (st1, acts2) ∧
      acts1.countP isCreateEffect = 1 ∧
      acts2.countP isCreateEffect = 0 ∧
      acts2 = [Effect.sessionQuery (SanitizeSessionName p.name),
        if insideTmux then Effect.switchTo (SanitizeSessionName p.name)
        else Effect.attach (SanitizeSessionName p.name)] := by
  refine ⟨⟨SanitizeSessionName p.name :: st.sessions⟩,
    [.sessionQuery (SanitizeSessionName p.name),
      .sessionCreate (SanitizeSessionName p.name),
      if insideTmux then .switchTo (SanitizeSessionName p.name)
      else .attach (SanitizeSessionName p.name)],
    [.sessionQuery (SanitizeSessionName p.name),
      if insideTmux then .switchTo (SanitizeSessionName p.name)
      else .attach (SanitizeSessionName p.name)], ?_, ?_, ?_, ?_, rfl⟩
  · simp [GetOrCreateSession, CreateSession, hnew]
  · have h2 : SessionExists ⟨SanitizeSessionName p.name :: st.sessions⟩
        (SanitizeSessionName p.name) = true := by
      simp [SessionExists]
    simp [GetOrCreateSession, h2]
  · cases insideTmux <;> rfl
  · cases insideTmux <;> rfl

/-- C8 witness: a fresh server state, outside tmux. -/
theorem C8_getOrCreate_idempotent_witness :
    ∃ st1 acts1 acts2,
      GetOrCreateSession true false ⟨[]⟩ ⟨"proj", "/proj", 0⟩
          = .ok (st1, acts1) ∧
        GetOrCreateSession true false st1 ⟨"proj", "/proj", 0⟩
          = .ok (st1, acts2) ∧
        acts1.countP isCreateEffect = 1 ∧
        acts2.countP isCreateEffect = 0 ∧
        acts2 = [Effect.sessionQuery (SanitizeSessionName "proj"),
          if false then Effect.switchTo (SanitizeSessionName "proj")
          else Effect.attach (SanitizeSessionName "proj")] :=
  C8_getOrCreate_idempotent ⟨[]⟩ ⟨"proj", "/proj", 0⟩ false (by decide)

/-- C9: when the selector reports cancellation, the interactive entry point
exits successfully with an empty effect log — no recency-cache write, no
zoxide visit, no session query, creation, attach, or switch. -/
theorem C9_cancel_no_effects (projects : List Project)
    (loadResult : Option RecentProjects) (now : Nat)
    (tmuxInstalled insideTmux : Bool) (st : TmuxState)
    (hne : projects ≠ []) :
    runInteractive true projects .cancelled loadResult now
      tmuxInstalled insideTmux st = .ok [] := by
  simp [runInteractive, List.isEmpty_iff, hne]

/-- C9 witness: cancelling with one candidate project logs nothing. -/
theorem C9_cancel_no_effects_witness :
    runInteractive true [⟨"a", "/a", 0⟩] .cancelled none 0 true false ⟨[]⟩
      = .ok [] :=
  C9_cancel_no_effects [⟨"a", "/a", 0⟩] none 0 true false ⟨[]⟩ (by decide)

/-! ## Helper lemmas and claim theorem for the oracle client (C10) -/

theorem collect_go_preserve (pf : String → Option ℚ) (lines : List String) :
    ∀ (m : String → Option ℚ) (pa : String), (∃ v, m pa = some v) →
      ∃ v, (lines.foldl (stepScore pf) m) pa = some v := by
  induction lines with
  | nil =>
    intro m pa h
    exact h
  | cons l rest ih =>
    intro m pa h
    rw [List.foldl_cons]
    apply ih
    rw [stepScore]
    cases hpl : parseLine pf l with
    | none => exact h
    | some qs =>
      by_cases hq : pa = qs.1
      · exact ⟨qs.2, by simp [hq]⟩
      · simpa [hq] using h

theorem collect_mem (pf : String → Option ℚ) (line pa : String) (sc : ℚ)
    (hparse : parseLine pf line = some (pa, sc)) :
    ∀ (lines : List String) (m : String → Option ℚ), line ∈ lines →
      ∃ v, (lines.foldl (stepScore pf) m) pa = some v := by
  intro lines
  induction lines with
  | nil =>
    intro m h
    cases h
  | cons l rest ih =>
    intro m hmem
    rw [List.foldl_cons]
    rcases List.mem_cons.mp hmem with rfl | hmem2
    · apply collect_go_preserve
      exact ⟨sc, by simp [stepScore, hparse]⟩
    · exact ih _ hmem2

/-- C10: fetching oracle scores never returns an error for any oracle
outcome; absence of the binary yields a nil map, a failed query an empty map;
on output, the trimmed text is split into lines, a line that is empty, has no
space after trimming, or whose leading field does not parse is skipped
without affecting the result, and every well-formed line contributes its path
to the score map. -/
theorem C10_getScores_total (pf : String → Option ℚ) :
    GetScores pf .notInstalled = (none, none) ∧
      GetScores pf .queryFailed = (some (fun _ => none), none) ∧
      (∀ s, GetScores pf (.output s)
        = (some (collectScores pf
            ((splitOnChar '\n' (trimSpaceList s.data)).map fun l => ⟨l⟩)),
          none)) ∧
      (∀ out, (GetScores pf out).2 = none) ∧
      (∀ pre bad post, parseLine pf bad = none →
        collectScores pf (pre ++ bad :: post)
          = collectScores pf (pre ++ post)) ∧
      (∀ lines line pa sc, line ∈ lines → parseLine pf line = some (pa, sc) →
        ∃ v, collectScores pf lines pa = some v) := by
  refine ⟨rfl, rfl, fun s => rfl, fun out => ?_, ?_, ?_⟩
  · cases out <;> rfl
  · intro pre bad post hbad
    rw [collectScores, collectScores, List.foldl_append, List.foldl_append,
      List.foldl_cons]
    have hs : stepScore pf (pre.foldl (stepScore pf) (fun _ => none)) bad
        = pre.foldl (stepScore pf) (fun _ => none) := by
      simp [stepScore, hbad]
    rw [hs]
  · intro lines line pa sc hmem hparse
    rw [collectScores]
    exact collect_mem pf line pa sc hparse lines _ hmem

/-- C10 witness: one well-formed line is collected. -/
theorem C10_getScores_total_witness :
    ∃ v, collectScores (fun t => if t = "2" then some 2 else none)
      ["2 /a"] "/a" = some v :=
  (C10_getScores_total
      (fun t => if t = "2" then some 2 else none)).2.2.2.2.2
    ["2 /a"] "2 /a" "/a" 2 (by decide) (by decide)

end Sesh
